import Mathlib

/-!
# Receipt OCR text extraction: verification of `parseReceiptText`

Shallow embedding of the receipt-text parser of the ClearBill repository.
The function `parseReceiptText` appears verbatim in two places:
  * `src/lib/hooks/useReceiptOCR.ts` (client copy), embedded in
    namespace `UseReceiptOCR` below, and
  * `src/app/api/line-items/[id]/route.ts` (server copy), embedded in
    namespace `LineItemsRoute` below.

Modelling decisions, shared by both copies (this layer models the
JavaScript language and runtime, not repository code):

  * JavaScript strings are modelled as `List Char` (one element per code
    unit; all inputs of interest are in the basic plane where code units
    and characters coincide).  `String` is used at the outer interface.
  * JavaScript numbers are modelled as `ℚ`.  The parser only ever parses
    short decimal numerals and compares them with the constants 0 and
    10000; on such values IEEE doubles and rationals order and compare
    identically, so the model is faithful for every claim checked here.
    `NaN` is modelled by `Option.none` of `Option ℚ`.
  * The regular expressions of the source are embedded as values of the
    inductive `RE` below, and `matchList` implements the ECMAScript
    backtracking search for exactly the constructs those regexes use:
    character classes, literals under the `i` flag, alternation of
    literals, greedy and lazy counted repetition of a character class,
    and the `$` anchor.  Every repetition in the source regexes is a
    repetition of a single character class, so an iteration count fully
    determines the consumed text and backtracking is the ordered
    enumeration of iteration counts (descending for greedy, ascending
    for lazy).  `searchFrom` tries successive start positions, as the
    unanchored `String.prototype.match` does.
  * Capture groups are recovered through `RE.mark`, which records the
    current input position.  In every source regex each capture group
    either spans the whole match or ends where the match or the line
    ends, so marker positions determine the captured substrings.
-/

/-! ## JavaScript character classes and string primitives -/

/-- The ECMAScript `\s` class (WhiteSpace and LineTerminator), which is
also the character set removed by `String.prototype.trim`. -/
def isJsWs (c : Char) : Bool :=
  c.toNat = 9 || c.toNat = 10 || c.toNat = 11 || c.toNat = 12 || c.toNat = 13 ||
  c.toNat = 32 || c.toNat = 160 || c.toNat = 0x1680 ||
  (0x2000 ≤ c.toNat && c.toNat ≤ 0x200a) ||
  c.toNat = 0x2028 || c.toNat = 0x2029 || c.toNat = 0x202f ||
  c.toNat = 0x205f || c.toNat = 0x3000 || c.toNat = 0xfeff

/-- The ECMAScript `\d` class. -/
def isDigitCh (c : Char) : Bool := 48 ≤ c.toNat && c.toNat ≤ 57

/-- The ECMAScript `.` atom: any character except a line terminator. -/
def isDotCh (c : Char) : Bool :=
  !(c.toNat = 10 || c.toNat = 13 || c.toNat = 0x2028 || c.toNat = 0x2029)

/-- The class `[-\/]` of the date regexes. -/
def isSepCh (c : Char) : Bool := c = '-' || c = '/'

/-- The class `[\d,]` of the numeric captures. -/
def isDigitComma (c : Char) : Bool := isDigitCh c || c = ','

/-- The class `[:\s]` of the amount regexes. -/
def isColonWs (c : Char) : Bool := c = ':' || isJsWs c

/-- The class `[,\s]` of the month-name date regex. -/
def isCommaWs (c : Char) : Bool := c = ',' || isJsWs c

/-- The class `[\s-]` of the subtotal regex. -/
def isWsDash (c : Char) : Bool := isJsWs c || c = '-'

/-- The class `[a-z]` under the `i` flag. -/
def isAlphaCI (c : Char) : Bool :=
  (97 ≤ c.toNat && c.toNat ≤ 122) || (65 ≤ c.toNat && c.toNat ≤ 90)

/-- The class `[A-Z]` (no flag): uppercase Latin letters only. -/
def isUpperLatin (c : Char) : Bool := 65 ≤ c.toNat && c.toNat ≤ 90

/-- The literal `\$` atom. -/
def isDollar (c : Char) : Bool := c = '$'

/-- The literal `\.` atom. -/
def isPeriod (c : Char) : Bool := c = '.'

/-- `String.prototype.trim`: strip `\s` characters from both ends. -/
def trimJs (l : List Char) : List Char :=
  ((l.dropWhile isJsWs).reverse.dropWhile isJsWs).reverse

/-- `String.prototype.split` with separator `"\n"`. -/
def splitOnNl : List Char → List (List Char)
  | [] => [[]]
  | c :: rest =>
    if c = '\n' then [] :: splitOnNl rest
    else
      match splitOnNl rest with
      | [] => [[c]]
      | l :: ls => (c :: l) :: ls

/-- Case-sensitive list prefix test (helper for substring search). -/
def startsWithList : List Char → List Char → Bool
  | _, [] => true
  | [], _ :: _ => false
  | c :: cs, d :: ds => c = d && startsWithList cs ds

/-- `String.prototype.includes`: case-sensitive substring search. -/
def containsStr : List Char → List Char → Bool
  | hay, needle =>
    startsWithList hay needle ||
      match hay with
      | [] => false
      | _ :: t => containsStr t needle

/-- Case-insensitive prefix test, modelling how a literal of a regex
carrying the `i` flag consumes input (ASCII case folding). -/
def startsWithCI : List Char → List Char → Bool
  | _, [] => true
  | [], _ :: _ => false
  | c :: cs, d :: ds => c.toLower = d.toLower && startsWithCI cs ds

/-- `String.prototype.replace(/,/g, "")`. -/
def stripCommas (l : List Char) : List Char := l.filter (fun c => !(c = ','))

/-- Value of a list of decimal digits. -/
def digitsVal (l : List Char) : ℕ := l.foldl (fun a c => 10 * a + (c.toNat - 48)) 0

/-- Model of `parseFloat` on the strings this parser can feed it: after
comma removal every regex capture consists of decimal digits and at most
one dot.  On that domain `parseFloat` returns `NaN` exactly when the
string contains no digit, and otherwise the value of the decimal
numeral (integer part plus fractional part); the sign, exponent and
whitespace handling of full `parseFloat` is unreachable here. -/
def parseFloatQ (l : List Char) : Option ℚ :=
  let ip := l.takeWhile isDigitCh
  let rest := l.drop ip.length
  let fp := match rest with
            | '.' :: r => r.takeWhile isDigitCh
            | _ => []
  if ip.isEmpty && fp.isEmpty then none
  else some (mkRat (digitsVal ip * 10 ^ fp.length + digitsVal fp) (10 ^ fp.length))

/-! ## The regular-expression engine -/

/-- Abstract syntax of the regex constructs used by the source patterns.
A pattern is a `List RE`, matched in sequence. -/
inductive RE where
  /-- A single character of a class. -/
  | cls : (Char → Bool) → RE
  /-- A literal, case-insensitive (every literal of the source regexes
  occurs under the `i` flag). -/
  | lit : List Char → RE
  /-- Ordered alternation of case-insensitive literals, for the
  month-name group `(jan|feb|...|dec)`. -/
  | litAlt : List (List Char) → RE
  /-- `rep greedy lo hi p`: between `lo` and `hi` (unbounded when
  `none`) characters of class `p`; greedy tries long first, lazy tries
  short first. -/
  | rep : Bool → Nat → Option Nat → (Char → Bool) → RE
  /-- Records the current position; used to delimit capture groups. -/
  | mark : RE
  /-- The `$` anchor. -/
  | eos : RE

/-- The iteration counts a repetition attempts, in attempt order. -/
def countsFor (greedy : Bool) (lo maxN : Nat) : List Nat :=
  if greedy then (List.range (maxN + 1 - lo)).map (fun i => maxN - i)
  else (List.range (maxN + 1 - lo)).map (fun i => lo + i)

/-- Backtracking matcher: match the pattern at the current position.
`cs` is the remaining input, `pos` the absolute position; on success
returns the end position of the match and the recorded marker
positions, for the first successful branch in ECMAScript attempt
order. -/
def matchList : List RE → List Char → Nat → Option (Nat × List Nat)
  | [], _, pos => some (pos, [])
  | re :: k, cs, pos =>
    match re with
    | .cls p =>
      match cs with
      | [] => none
      | c :: cs' => if p c then matchList k cs' (pos + 1) else none
    | .lit s =>
      if startsWithCI cs s then matchList k (cs.drop s.length) (pos + s.length) else none
    | .litAlt ss =>
      ss.findSome? (fun s =>
        if startsWithCI cs s then matchList k (cs.drop s.length) (pos + s.length) else none)
    | .rep g lo hi p =>
      let run := (cs.takeWhile p).length
      let maxN := min run (hi.getD run)
      (countsFor g lo maxN).findSome? (fun n => matchList k (cs.drop n) (pos + n))
    | .mark => (matchList k cs pos).map (fun r => (r.1, pos :: r.2))
    | .eos => if cs.isEmpty then matchList k cs pos else none

/-- Unanchored search, as `String.prototype.match` performs it: try the
pattern at every position from `pos` on, returning the leftmost match as
(start, end, markers). -/
def searchFrom (p : List RE) (cs : List Char) (pos : Nat) : Option (Nat × Nat × List Nat) :=
  match matchList p cs pos with
  | some (e, ms) => some (pos, e, ms)
  | none =>
    match cs with
    | [] => none
    | _ :: cs' => searchFrom p cs' (pos + 1)

/-- The substring of `l` between absolute positions `s` and `e`. -/
def segOf (l : List Char) (s e : Nat) : List Char := (l.drop s).take (e - s)

/-- Number of `mark` elements of a pattern. -/
def countMarks : List RE → Nat
  | [] => 0
  | .mark :: k => countMarks k + 1
  | _ :: k => countMarks k

/-! ## Loops with early exit

The source scans lines with `for` loops that `break` once the field
under construction is truthy.  `loopFirst` renders this loop shape: the
accumulator is overwritten by every per-line result and the loop stops
as soon as the accumulator is truthy (JavaScript truthiness: a number is
truthy unless it is 0, a string unless it is empty). -/

def truthyStr (o : Option (List Char)) : Bool :=
  match o with
  | some s => !s.isEmpty
  | none => false

def truthyQ (o : Option ℚ) : Bool :=
  match o with
  | some v => decide (v ≠ 0)
  | none => false

def loopFirst {α : Type} (f : List Char → Option α) (truthy : Option α → Bool) :
    Option α → List (List Char) → Option α
  | cur, [] => cur
  | cur, l :: ls =>
    let cur' := match f l with
                | some v => some v
                | none => cur
    if truthy cur' then cur' else loopFirst f truthy cur' ls

/-! ## The output record -/

/-- One extracted line item (`ReceiptOCRItem` of the source). -/
structure ReceiptOCRItem where
  name : String
  price : ℚ
deriving DecidableEq, Repr

/-- The structured output (`ReceiptOCRData` of the source).  Optional
fields are absent when no value was extracted. -/
structure ReceiptOCRData where
  merchant : Option String := none
  date : Option String := none
  total : Option ℚ := none
  tax : Option ℚ := none
  subtotal : Option ℚ := none
  items : List ReceiptOCRItem := []
  raw_text : String
deriving DecidableEq, Repr

/-! ## The client copy: `src/lib/hooks/useReceiptOCR.ts` -/

namespace UseReceiptOCR

/-- The month-name alternatives of the third date pattern. -/
def months : List (List Char) :=
  ["jan".data, "feb".data, "mar".data, "apr".data, "may".data, "jun".data,
   "jul".data, "aug".data, "sep".data, "oct".data, "nov".data, "dec".data]

/-- `/(\d{1,2}[-\/]\d{1,2}[-\/]\d{2,4})/` -/
def datePattern1 : List RE :=
  [.rep true 1 (some 2) isDigitCh, .cls isSepCh,
   .rep true 1 (some 2) isDigitCh, .cls isSepCh,
   .rep true 2 (some 4) isDigitCh]

/-- `/(\d{2,4}[-\/]\d{1,2}[-\/]\d{1,2})/` -/
def datePattern2 : List RE :=
  [.rep true 2 (some 4) isDigitCh, .cls isSepCh,
   .rep true 1 (some 2) isDigitCh, .cls isSepCh,
   .rep true 1 (some 2) isDigitCh]

/-- `/(jan|feb|mar|apr|may|jun|jul|aug|sep|oct|nov|dec)[a-z]*\s+\d{1,2}[,\s]+\d{2,4}/i` -/
def datePattern3 : List RE :=
  [.litAlt months, .rep true 0 none isAlphaCI, .rep true 1 none isJsWs,
   .rep true 1 (some 2) isDigitCh, .rep true 1 none isCommaWs,
   .rep true 2 (some 4) isDigitCh]

def datePatterns : List (List RE) := [datePattern1, datePattern2, datePattern3]

/-- The numeric part `[:\s]*\$?[\s]*([\d,]+\.?\d{0,2})` shared by every
amount regex of the source; the capture group is delimited by `mark`. -/
def amountTail : List RE :=
  [.rep true 0 none isColonWs, .rep true 0 (some 1) isDollar,
   .rep true 0 none isJsWs, .mark,
   .rep true 1 none isDigitComma, .rep true 0 (some 1) isPeriod,
   .rep true 0 (some 2) isDigitCh]

/-- `/total[:\s]*\$?[\s]*([\d,]+\.?\d{0,2})/i` -/
def totalPattern1 : List RE := .lit "total".data :: amountTail

/-- The `totalPatterns` array: labels `total`, `amount`, `balance`. -/
def totalPatterns : List (List RE) :=
  [totalPattern1, .lit "amount".data :: amountTail, .lit "balance".data :: amountTail]

/-- The `taxPatterns` array: labels `tax`, `gst`, `vat`. -/
def taxPatterns : List (List RE) :=
  [.lit "tax".data :: amountTail, .lit "gst".data :: amountTail,
   .lit "vat".data :: amountTail]

/-- The `subtotalPatterns` array:
`/sub[\s-]?total[:\s]*\$?[\s]*([\d,]+\.?\d{0,2})/i` then
`/subtotal[:\s]*\$?[\s]*([\d,]+\.?\d{0,2})/i`. -/
def subtotalPatterns : List (List RE) :=
  [[.lit "sub".data, .rep true 0 (some 1) isWsDash, .lit "total".data] ++ amountTail,
   .lit "subtotal".data :: amountTail]

/-- `/^(.+?)\s+\$?([\d,]+\.?\d{2})$/`; the two capture groups are
delimited by the two `mark` elements (the first group starts at the
anchored position 0, the second extends to the end of the line). -/
def itemPattern : List RE :=
  [.rep false 1 none isDotCh, .mark, .rep true 1 none isJsWs,
   .rep true 0 (some 1) isDollar, .mark,
   .rep true 1 none isDigitComma, .rep true 0 (some 1) isPeriod,
   .rep true 2 (some 2) isDigitCh, .eos]

/-- `text.split('\n').map(line => line.trim()).filter(line => line)` -/
def normalizedLines (text : String) : List (List Char) :=
  ((splitOnNl text.data).map trimJs).filter (fun l => !l.isEmpty)

/-- The merchant predicate:
`line.length > 3 && line.length < 50 && !line.match(/^\d/) && line.match(/[A-Z]/)` -/
def merchantTest (l : List Char) : Bool :=
  decide (3 < l.length) && decide (l.length < 50) &&
  !(match l with | c :: _ => isDigitCh c | [] => false) &&
  l.any isUpperLatin

/-- The inner loop of the date scan: try the patterns in order, return
`match[0]` of the first pattern that matches the line. -/
def dateOfLine (l : List Char) : Option (List Char) :=
  datePatterns.findSome? (fun p =>
    (searchFrom p l 0).map (fun r => segOf l r.1 r.2.1))

/-- The inner loop of an amount scan: try the patterns in order; for a
pattern that matches, parse `match[1]` with commas removed; accept the
first pattern whose parse is a valid number, otherwise keep trying. -/
def amountOfLine (pats : List (List RE)) (l : List Char) : Option ℚ :=
  pats.findSome? (fun p =>
    (searchFrom p l 0).bind (fun r =>
      match r.2.2 with
      | [m] => parseFloatQ (stripCommas (segOf l m r.2.1))
      | _ => none))

/-- Match a line against `itemPattern` (anchored at position 0) and
produce the trimmed name `match[1].trim()` together with the parse of
`match[2]` with commas removed (`none` models `NaN`). -/
def itemOfLine (l : List Char) : Option (List Char × Option ℚ) :=
  (matchList itemPattern l 0).bind (fun r =>
    match r.2 with
    | [m1, m2] => some (trimJs (l.take m1), parseFloatQ (stripCommas (segOf l m2 r.1)))
    | _ => none)

/-- The keyword filter on the lower-cased item name. -/
def keywordFree (name : List Char) : Bool :=
  let lower := name.map Char.toLower
  !containsStr lower "total".data && !containsStr lower "tax".data &&
  !containsStr lower "subtotal".data && !containsStr lower "amount".data &&
  !containsStr lower "balance".data

/-- The item loop: every line is tested; a candidate is appended when
its price is a valid number strictly between 0 and 10000 and its name
passes the keyword filter. -/
def extractItems (lines : List (List Char)) : List ReceiptOCRItem :=
  lines.foldl (fun acc l =>
    match itemOfLine l with
    | some (name, some price) =>
      if 0 < price ∧ price < 10000 then
        if keywordFree name then acc ++ [⟨String.mk name, price⟩] else acc
      else acc
    | _ => acc) []

/-- `parseReceiptText` of `src/lib/hooks/useReceiptOCR.ts`. -/
def parseReceiptText (text : String) : ReceiptOCRData :=
  let lines := normalizedLines text
  { merchant := (lines.find? merchantTest).map String.mk
    date := (loopFirst dateOfLine truthyStr none lines).map String.mk
    total := loopFirst (amountOfLine totalPatterns) truthyQ none lines
    tax := loopFirst (amountOfLine taxPatterns) truthyQ none lines
    subtotal := loopFirst (amountOfLine subtotalPatterns) truthyQ none lines
    items := extractItems lines
    raw_text := text }

end UseReceiptOCR

/-! ## The server copy: `src/app/api/line-items/[id]/route.ts`

The function `parseReceiptText` of the API route file is character for
character the same TypeScript as the client copy; its embedding below
repeats the same definitions. -/

namespace LineItemsRoute

/-- The month-name alternatives of the third date pattern. -/
def months : List (List Char) :=
  ["jan".data, "feb".data, "mar".data, "apr".data, "may".data, "jun".data,
   "jul".data, "aug".data, "sep".data, "oct".data, "nov".data, "dec".data]

/-- `/(\d{1,2}[-\/]\d{1,2}[-\/]\d{2,4})/` -/
def datePattern1 : List RE :=
  [.rep true 1 (some 2) isDigitCh, .cls isSepCh,
   .rep true 1 (some 2) isDigitCh, .cls isSepCh,
   .rep true 2 (some 4) isDigitCh]

/-- `/(\d{2,4}[-\/]\d{1,2}[-\/]\d{1,2})/` -/
def datePattern2 : List RE :=
  [.rep true 2 (some 4) isDigitCh, .cls isSepCh,
   .rep true 1 (some 2) isDigitCh, .cls isSepCh,
   .rep true 1 (some 2) isDigitCh]

/-- `/(jan|feb|mar|apr|may|jun|jul|aug|sep|oct|nov|dec)[a-z]*\s+\d{1,2}[,\s]+\d{2,4}/i` -/
def datePattern3 : List RE :=
  [.litAlt months, .rep true 0 none isAlphaCI, .rep true 1 none isJsWs,
   .rep true 1 (some 2) isDigitCh, .rep true 1 none isCommaWs,
   .rep true 2 (some 4) isDigitCh]

def datePatterns : List (List RE) := [datePattern1, datePattern2, datePattern3]

/-- The numeric part `[:\s]*\$?[\s]*([\d,]+\.?\d{0,2})` shared by every
amount regex of the source; the capture group is delimited by `mark`. -/
def amountTail : List RE :=
  [.rep true 0 none isColonWs, .rep true 0 (some 1) isDollar,
   .rep true 0 none isJsWs, .mark,
   .rep true 1 none isDigitComma, .rep true 0 (some 1) isPeriod,
   .rep true 0 (some 2) isDigitCh]

/-- `/total[:\s]*\$?[\s]*([\d,]+\.?\d{0,2})/i` -/
def totalPattern1 : List RE := .lit "total".data :: amountTail

/-- The `totalPatterns` array: labels `total`, `amount`, `balance`. -/
def totalPatterns : List (List RE) :=
  [totalPattern1, .lit "amount".data :: amountTail, .lit "balance".data :: amountTail]

/-- The `taxPatterns` array: labels `tax`, `gst`, `vat`. -/
def taxPatterns : List (List RE) :=
  [.lit "tax".data :: amountTail, .lit "gst".data :: amountTail,
   .lit "vat".data :: amountTail]

/-- The `subtotalPatterns` array. -/
def subtotalPatterns : List (List RE) :=
  [[.lit "sub".data, .rep true 0 (some 1) isWsDash, .lit "total".data] ++ amountTail,
   .lit "subtotal".data :: amountTail]

/-- `/^(.+?)\s+\$?([\d,]+\.?\d{2})$/` -/
def itemPattern : List RE :=
  [.rep false 1 none isDotCh, .mark, .rep true 1 none isJsWs,
   .rep true 0 (some 1) isDollar, .mark,
   .rep true 1 none isDigitComma, .rep true 0 (some 1) isPeriod,
   .rep true 2 (some 2) isDigitCh, .eos]

/-- `text.split('\n').map(line => line.trim()).filter(line => line)` -/
def normalizedLines (text : String) : List (List Char) :=
  ((splitOnNl text.data).map trimJs).filter (fun l => !l.isEmpty)

/-- The merchant predicate. -/
def merchantTest (l : List Char) : Bool :=
  decide (3 < l.length) && decide (l.length < 50) &&
  !(match l with | c :: _ => isDigitCh c | [] => false) &&
  l.any isUpperLatin

/-- The inner loop of the date scan. -/
def dateOfLine (l : List Char) : Option (List Char) :=
  datePatterns.findSome? (fun p =>
    (searchFrom p l 0).map (fun r => segOf l r.1 r.2.1))

/-- The inner loop of an amount scan. -/
def amountOfLine (pats : List (List RE)) (l : List Char) : Option ℚ :=
  pats.findSome? (fun p =>
    (searchFrom p l 0).bind (fun r =>
      match r.2.2 with
      | [m] => parseFloatQ (stripCommas (segOf l m r.2.1))
      | _ => none))

/-- Match a line against `itemPattern` (anchored at position 0). -/
def itemOfLine (l : List Char) : Option (List Char × Option ℚ) :=
  (matchList itemPattern l 0).bind (fun r =>
    match r.2 with
    | [m1, m2] => some (trimJs (l.take m1), parseFloatQ (stripCommas (segOf l m2 r.1)))
    | _ => none)

/-- The keyword filter on the lower-cased item name. -/
def keywordFree (name : List Char) : Bool :=
  let lower := name.map Char.toLower
  !containsStr lower "total".data && !containsStr lower "tax".data &&
  !containsStr lower "subtotal".data && !containsStr lower "amount".data &&
  !containsStr lower "balance".data

/-- The item loop. -/
def extractItems (lines : List (List Char)) : List ReceiptOCRItem :=
  lines.foldl (fun acc l =>
    match itemOfLine l with
    | some (name, some price) =>
      if 0 < price ∧ price < 10000 then
        if keywordFree name then acc ++ [⟨String.mk name, price⟩] else acc
      else acc
    | _ => acc) []

/-- `parseReceiptText` of `src/app/api/line-items/[id]/route.ts`. -/
def parseReceiptText (text : String) : ReceiptOCRData :=
  let lines := normalizedLines text
  { merchant := (lines.find? merchantTest).map String.mk
    date := (loopFirst dateOfLine truthyStr none lines).map String.mk
    total := loopFirst (amountOfLine totalPatterns) truthyQ none lines
    tax := loopFirst (amountOfLine taxPatterns) truthyQ none lines
    subtotal := loopFirst (amountOfLine subtotalPatterns) truthyQ none lines
    items := extractItems lines
    raw_text := text }

end LineItemsRoute

/-! ## Derived characterizations used in the claim statements -/

/-- The first pattern of a line whose captured number parses and is
nonzero (the value a scan can permanently commit to). -/
def nzAmount (pats : List (List RE)) (l : List Char) : Option ℚ :=
  match UseReceiptOCR.amountOfLine pats l with
  | some v => if v = 0 then none else some v
  | none => none

/-- Specification of the amount scan over the whole line list: the value
of the earliest line whose parse is nonzero wins; failing that, the scan
ends on 0 when some line parsed (to 0), else the field is absent. -/
def amountFirst (pats : List (List RE)) (lines : List (List Char)) : Option ℚ :=
  match lines.findSome? (nzAmount pats) with
  | some v => some v
  | none =>
    if lines.any (fun l => (UseReceiptOCR.amountOfLine pats l).isSome) then some 0
    else none

/-- What the item loop emits for one line: the candidate of a matching
line filtered by the price bounds and the keyword test. -/
def emitOfLine (l : List Char) : Option ReceiptOCRItem :=
  match UseReceiptOCR.itemOfLine l with
  | some (name, some price) =>
    if 0 < price ∧ price < 10000 then
      if UseReceiptOCR.keywordFree name then some ⟨String.mk name, price⟩ else none
    else none
  | _ => none

/-- Whether a pattern matches at the start of the input.  Success of the
matcher does not depend on the position argument (which only shifts the
reported positions), so position 0 is representative. -/
def matchBool (k : List RE) (cs : List Char) : Bool := (matchList k cs 0).isSome

/-- The language of the numeric tail `[\d,]+\.?\d{2}` of the line-item
regex: digits and commas (at least one), an optional dot, then exactly
two digits. -/
def NumShape (m : List Char) : Prop :=
  ∃ x y z, m = x ++ y ++ z ∧ x ≠ [] ∧ (∀ c ∈ x, isDigitComma c = true) ∧
    (y = [] ∨ y = ['.']) ∧ z.length = 2 ∧ (∀ c ∈ z, isDigitCh c = true)

/-- The language of the whole line-item regex `/^(.+?)\s+\$?([\d,]+\.?\d{2})$/`:
free-form text (at least one character, no line terminator), whitespace,
an optional dollar sign, then a `NumShape` amount, together consuming
the whole line. -/
def ItemShape (l : List Char) : Prop :=
  ∃ a w d m, l = a ++ w ++ d ++ m ∧ a ≠ [] ∧ (∀ c ∈ a, isDotCh c = true) ∧
    w ≠ [] ∧ (∀ c ∈ w, isJsWs c = true) ∧ (d = [] ∨ d = ['$']) ∧ NumShape m

/-- The merchant condition as stated by the specification: length
strictly between 3 and 50, not beginning with a digit, containing at
least one uppercase Latin letter. -/
def MerchProp (l : List Char) : Prop :=
  3 < l.length ∧ l.length < 50 ∧ (∀ c, l.head? = some c → isDigitCh c = false) ∧
    ∃ c ∈ l, isUpperLatin c = true

/-- The five excluded substrings of the item filter, lower case. -/
def keywordListLC : List (List Char) :=
  ["total".data, "tax".data, "subtotal".data, "amount".data, "balance".data]

/-- The keyword filter as stated by the specification: the lower-cased
name contains none of the five keywords as a substring. -/
def NoKeyword (name : List Char) : Prop :=
  ∀ kw ∈ keywordListLC, ¬ ∃ u v, name.map Char.toLower = u ++ kw ++ v

/-- The end-to-end scenario input of the specification. -/
def e2eText : String :=
  "QUICK MART\n04/12/2025\nMilk 3.99\nBread 2.49\nSubtotal: $6.48\nTax: $0.52\nTotal: $7.00"

/-! ## Engine lemmas -/

theorem findSome?_ex {α β : Type} {f : α → Option β} {l : List α} {b : β}
    (h : l.findSome? f = some b) : ∃ a ∈ l, f a = some b := by
  induction l with
  | nil => simp [List.findSome?_nil] at h
  | cons x xs ih =>
    rw [List.findSome?_cons] at h
    cases hx : f x with
    | some v => rw [hx] at h; exact ⟨x, List.mem_cons_self x xs, hx.trans h⟩
    | none =>
      rw [hx] at h
      obtain ⟨a, ha, hfa⟩ := ih h
      exact ⟨a, List.mem_cons_of_mem x ha, hfa⟩

theorem findSome?_isSome_iff {α β : Type} {f : α → Option β} {l : List α} :
    (l.findSome? f).isSome = true ↔ ∃ a ∈ l, (f a).isSome = true := by
  induction l with
  | nil => simp [List.findSome?_nil]
  | cons x xs ih =>
    rw [List.findSome?_cons]
    cases hx : f x with
    | some v => simp [hx]
    | none =>
      show (List.findSome? f xs).isSome = true ↔ _
      rw [ih]
      constructor
      · rintro ⟨a, ha, h2⟩; exact ⟨a, List.mem_cons_of_mem x ha, h2⟩
      · rintro ⟨a, ha, h2⟩
        rcases List.mem_cons.mp ha with rfl | ha'
        · rw [hx] at h2; cases h2
        · exact ⟨a, ha', h2⟩

theorem findSome?_of_mem {α β : Type} {f : α → Option β} {l : List α} {a : α} {b : β}
    (ha : a ∈ l) (hfa : f a = some b) : (l.findSome? f).isSome = true :=
  findSome?_isSome_iff.mpr ⟨a, ha, by rw [hfa]; rfl⟩

theorem mem_countsFor {g : Bool} {lo maxN n : Nat} :
    n ∈ countsFor g lo maxN ↔ lo ≤ n ∧ n ≤ maxN := by
  cases g <;> simp only [countsFor, Bool.false_eq_true, if_false, if_true,
    List.mem_map, List.mem_range] <;> constructor
  · rintro ⟨i, hi, rfl⟩; omega
  · rintro ⟨h1, h2⟩; exact ⟨n - lo, by omega, by omega⟩
  · rintro ⟨i, hi, rfl⟩; omega
  · rintro ⟨h1, h2⟩; exact ⟨maxN - n, by omega, by omega⟩

theorem matchList_nil {cs : List Char} {pos : Nat} :
    matchList [] cs pos = some (pos, []) := rfl

theorem matchList_cls_nil {p : Char → Bool} {k : List RE} {pos : Nat} :
    matchList (.cls p :: k) [] pos = none := rfl

theorem matchList_cls_cons {p : Char → Bool} {k : List RE} {c : Char} {cs' : List Char}
    {pos : Nat} :
    matchList (.cls p :: k) (c :: cs') pos =
      (if p c then matchList k cs' (pos + 1) else none) := rfl

theorem matchList_lit {s : List Char} {k : List RE} {cs : List Char} {pos : Nat} :
    matchList (.lit s :: k) cs pos =
      (if startsWithCI cs s then matchList k (cs.drop s.length) (pos + s.length)
       else none) := rfl

theorem matchList_litAlt {ss : List (List Char)} {k : List RE} {cs : List Char} {pos : Nat} :
    matchList (.litAlt ss :: k) cs pos =
      ss.findSome? (fun s =>
        if startsWithCI cs s then matchList k (cs.drop s.length) (pos + s.length)
        else none) := rfl

theorem matchList_rep {g : Bool} {lo : Nat} {hi : Option Nat} {p : Char → Bool}
    {k : List RE} {cs : List Char} {pos : Nat} :
    matchList (.rep g lo hi p :: k) cs pos =
      (countsFor g lo (min ((cs.takeWhile p).length) (hi.getD ((cs.takeWhile p).length)))).findSome?
        (fun n => matchList k (cs.drop n) (pos + n)) := rfl

theorem matchList_mark {k : List RE} {cs : List Char} {pos : Nat} :
    matchList (.mark :: k) cs pos =
      (matchList k cs pos).map (fun r => (r.1, pos :: r.2)) := rfl

theorem matchList_eos {k : List RE} {cs : List Char} {pos : Nat} :
    matchList (.eos :: k) cs pos =
      (if cs.isEmpty then matchList k cs pos else none) := rfl

theorem startsWithCI_length {cs s : List Char} (h : startsWithCI cs s = true) :
    s.length ≤ cs.length := by
  induction s generalizing cs with
  | nil => simp
  | cons d ds ih =>
    cases cs with
    | nil => simp [startsWithCI] at h
    | cons c cs' =>
      simp only [startsWithCI, Bool.and_eq_true] at h
      simpa [Nat.succ_le_succ_iff] using ih h.2

theorem length_takeWhile_below (p : Char → Bool) (cs : List Char) :
    (cs.takeWhile p).length ≤ cs.length := by
  induction cs with
  | nil => simp [List.takeWhile]
  | cons c cs' ih =>
    rw [List.takeWhile_cons]
    split
    · simpa using ih
    · simp

theorem matchList_bounds {l : List RE} {cs : List Char} {pos e : Nat} {ms : List Nat}
    (h : matchList l cs pos = some (e, ms)) : pos ≤ e ∧ e ≤ pos + cs.length := by
  induction l generalizing cs pos e ms with
  | nil => rw [matchList_nil] at h; cases h; omega
  | cons re k ih =>
    cases re with
    | cls p =>
      cases cs with
      | nil => rw [matchList_cls_nil] at h; cases h
      | cons c cs' =>
        rw [matchList_cls_cons] at h
        by_cases hp : p c = true
        · rw [if_pos hp] at h
          have := ih h
          simp only [List.length_cons]; omega
        · rw [if_neg hp] at h; cases h
    | lit s =>
      rw [matchList_lit] at h
      by_cases hs : startsWithCI cs s = true
      · rw [if_pos hs] at h
        have hb := ih h
        have hlen := startsWithCI_length hs
        have : (cs.drop s.length).length = cs.length - s.length := List.length_drop _ _
        omega
      · rw [if_neg hs] at h; cases h
    | litAlt ss =>
      rw [matchList_litAlt] at h
      obtain ⟨s, _, hs⟩ := findSome?_ex h
      by_cases hpre : startsWithCI cs s = true
      · rw [if_pos hpre] at hs
        have hb := ih hs
        have hlen := startsWithCI_length hpre
        have : (cs.drop s.length).length = cs.length - s.length := List.length_drop _ _
        omega
      · rw [if_neg hpre] at hs; cases hs
    | rep g lo hi p =>
      rw [matchList_rep] at h
      obtain ⟨n, hn, hs⟩ := findSome?_ex h
      have hmem := mem_countsFor.mp hn
      have hb := ih hs
      have hrun : (cs.takeWhile p).length ≤ cs.length := length_takeWhile_below p cs
      have : (cs.drop n).length = cs.length - n := List.length_drop _ _
      omega
    | mark =>
      rw [matchList_mark] at h
      cases hr : matchList k cs pos with
      | none => rw [hr] at h; cases h
      | some r =>
        rw [hr] at h
        simp only [Option.map] at h
        cases h
        exact ih hr
    | eos =>
      rw [matchList_eos] at h
      by_cases he : cs.isEmpty
      · rw [if_pos he] at h; exact ih h
      · rw [if_neg he] at h; cases h

theorem searchFrom_spec {p : List RE} {cs : List Char} {pos s e : Nat} {ms : List Nat}
    (h : searchFrom p cs pos = some (s, e, ms)) :
    pos ≤ s ∧ s - pos ≤ cs.length ∧ matchList p (cs.drop (s - pos)) s = some (e, ms) := by
  induction cs generalizing pos with
  | nil =>
    rw [searchFrom] at h
    cases hm : matchList p [] pos with
    | none => rw [hm] at h; cases h
    | some r =>
      rw [hm] at h
      obtain ⟨e', ms'⟩ := r
      cases h
      exact ⟨Nat.le_refl _, by simp, by simpa using hm⟩
  | cons c cs' ih =>
    rw [searchFrom] at h
    cases hm : matchList p (c :: cs') pos with
    | some r =>
      rw [hm] at h
      obtain ⟨e', ms'⟩ := r
      cases h
      exact ⟨Nat.le_refl _, by simp, by simpa using hm⟩
    | none =>
      rw [hm] at h
      obtain ⟨h1, h2, h3⟩ := ih h
      refine ⟨by omega, by simp only [List.length_cons]; omega, ?_⟩
      have hdrop : (c :: cs').drop (s - pos) = cs'.drop (s - (pos + 1)) := by
        have : s - pos = (s - (pos + 1)) + 1 := by omega
        rw [this, List.drop_succ_cons]
      rw [hdrop]
      exact h3

theorem isSome_matchList_nil {cs : List Char} {pos : Nat} :
    (matchList [] cs pos).isSome = true := rfl

theorem isSome_matchList_repU {g : Bool} {lo : Nat} {p : Char → Bool} {k : List RE}
    {cs : List Char} {pos : Nat} :
    (matchList (.rep g lo none p :: k) cs pos).isSome = true ↔
      ∃ n, lo ≤ n ∧ n ≤ (cs.takeWhile p).length ∧
        (matchList k (cs.drop n) (pos + n)).isSome = true := by
  rw [matchList_rep, findSome?_isSome_iff]
  simp only [Option.getD_none, Nat.min_self]
  constructor
  · rintro ⟨n, hn, h⟩
    have hm := mem_countsFor.mp hn
    exact ⟨n, hm.1, hm.2, h⟩
  · rintro ⟨n, h1, h2, h⟩
    exact ⟨n, mem_countsFor.mpr ⟨h1, h2⟩, h⟩

theorem isSome_matchList_repB {g : Bool} {lo hhi : Nat} {p : Char → Bool} {k : List RE}
    {cs : List Char} {pos : Nat} :
    (matchList (.rep g lo (some hhi) p :: k) cs pos).isSome = true ↔
      ∃ n, lo ≤ n ∧ n ≤ min ((cs.takeWhile p).length) hhi ∧
        (matchList k (cs.drop n) (pos + n)).isSome = true := by
  rw [matchList_rep, findSome?_isSome_iff]
  simp only [Option.getD_some]
  constructor
  · rintro ⟨n, hn, h⟩
    have hm := mem_countsFor.mp hn
    exact ⟨n, hm.1, hm.2, h⟩
  · rintro ⟨n, h1, h2, h⟩
    exact ⟨n, mem_countsFor.mpr ⟨h1, h2⟩, h⟩

theorem isSome_matchList_mark {k : List RE} {cs : List Char} {pos : Nat} :
    (matchList (.mark :: k) cs pos).isSome = true ↔
      (matchList k cs pos).isSome = true := by
  rw [matchList_mark]
  cases matchList k cs pos <;> simp

theorem isSome_matchList_eos {k : List RE} {cs : List Char} {pos : Nat} :
    (matchList (.eos :: k) cs pos).isSome = true ↔
      cs = [] ∧ (matchList k cs pos).isSome = true := by
  rw [matchList_eos]
  by_cases he : cs.isEmpty
  · rw [if_pos he]
    simp [List.isEmpty_iff.mp he]
  · rw [if_neg he]
    simp only [Option.isSome_none, Bool.false_eq_true, false_iff, not_and]
    intro hnil
    exact absurd (by simp [hnil]) he

theorem take_all_of_le_takeWhile {p : Char → Bool} {cs : List Char} {n : Nat}
    (h : n ≤ (cs.takeWhile p).length) :
    n ≤ cs.length ∧ ∀ c ∈ cs.take n, p c = true := by
  induction cs generalizing n with
  | nil =>
    simp only [List.takeWhile_nil, List.length_nil, Nat.le_zero] at h
    subst h
    simp
  | cons c cs' ih =>
    rw [List.takeWhile_cons] at h
    by_cases hp : p c = true
    · rw [if_pos hp] at h
      cases n with
      | zero => simp
      | succ m =>
        simp only [List.length_cons, Nat.succ_le_succ_iff] at h
        obtain ⟨h1, h2⟩ := ih h
        refine ⟨by simp only [List.length_cons]; omega, ?_⟩
        intro x hx
        rw [List.take_succ_cons] at hx
        rcases List.mem_cons.mp hx with rfl | hx'
        · exact hp
        · exact h2 x hx'
    · rw [if_neg hp] at h
      simp only [List.length_nil, Nat.le_zero] at h
      subst h
      simp

theorem le_takeWhile_append {p : Char → Bool} {a rest : List Char}
    (h : ∀ c ∈ a, p c = true) :
    a.length ≤ ((a ++ rest).takeWhile p).length := by
  induction a with
  | nil => simp
  | cons c a' ih =>
    rw [List.cons_append, List.takeWhile_cons, if_pos (h c (List.mem_cons_self c a'))]
    simp only [List.length_cons, Nat.succ_le_succ_iff]
    exact ih (fun x hx => h x (List.mem_cons_of_mem c hx))

theorem repU_decomp {p : Char → Bool} {lo : Nat} {cs : List Char} {P : List Char → Prop} :
    (∃ n, lo ≤ n ∧ n ≤ (cs.takeWhile p).length ∧ P (cs.drop n)) ↔
    (∃ a rest, cs = a ++ rest ∧ lo ≤ a.length ∧ (∀ c ∈ a, p c = true) ∧ P rest) := by
  constructor
  · rintro ⟨n, h1, h2, hP⟩
    obtain ⟨hlen, hall⟩ := take_all_of_le_takeWhile h2
    refine ⟨cs.take n, cs.drop n, (List.take_append_drop n cs).symm, ?_, hall, hP⟩
    rw [List.length_take, Nat.min_eq_left hlen]
    exact h1
  · rintro ⟨a, rest, rfl, h1, hall, hP⟩
    refine ⟨a.length, h1, le_takeWhile_append hall, ?_⟩
    rw [List.drop_left]
    exact hP

theorem repB_decomp {p : Char → Bool} {lo hhi : Nat} {cs : List Char} {P : List Char → Prop} :
    (∃ n, lo ≤ n ∧ n ≤ min ((cs.takeWhile p).length) hhi ∧ P (cs.drop n)) ↔
    (∃ a rest, cs = a ++ rest ∧ lo ≤ a.length ∧ a.length ≤ hhi ∧
      (∀ c ∈ a, p c = true) ∧ P rest) := by
  constructor
  · rintro ⟨n, h1, h2, hP⟩
    rw [Nat.le_min] at h2
    obtain ⟨hlen, hall⟩ := take_all_of_le_takeWhile h2.1
    refine ⟨cs.take n, cs.drop n, (List.take_append_drop n cs).symm, ?_, ?_, hall, hP⟩
    · rw [List.length_take, Nat.min_eq_left hlen]; exact h1
    · rw [List.length_take, Nat.min_eq_left hlen]; exact h2.2
  · rintro ⟨a, rest, rfl, h1, hhi2, hall, hP⟩
    refine ⟨a.length, h1, ?_, ?_⟩
    · rw [Nat.le_min]
      exact ⟨le_takeWhile_append hall, hhi2⟩
    · rw [List.drop_left]
      exact hP

theorem rep_head_adv {g : Bool} {lo : Nat} {hi : Option Nat} {p : Char → Bool}
    {k : List RE} {cs : List Char} {pos e : Nat} {ms : List Nat} (hlo : 1 ≤ lo)
    (h : matchList (.rep g lo hi p :: k) cs pos = some (e, ms)) : pos + 1 ≤ e := by
  rw [matchList_rep] at h
  obtain ⟨n, hn, hs⟩ := findSome?_ex h
  have hm := mem_countsFor.mp hn
  have hb := matchList_bounds hs
  omega

theorem litAlt_head_adv {ss : List (List Char)} {k : List RE} {cs : List Char}
    {pos e : Nat} {ms : List Nat} (hne : ∀ s ∈ ss, 1 ≤ s.length)
    (h : matchList (.litAlt ss :: k) cs pos = some (e, ms)) : pos + 1 ≤ e := by
  rw [matchList_litAlt] at h
  obtain ⟨s, hmem, hs⟩ := findSome?_ex h
  by_cases hpre : startsWithCI cs s = true
  · rw [if_pos hpre] at hs
    have hb := matchList_bounds hs
    have := hne s hmem
    omega
  · rw [if_neg hpre] at hs
    cases hs

theorem matchList_marks_len {l : List RE} {cs : List Char} {pos e : Nat} {ms : List Nat}
    (h : matchList l cs pos = some (e, ms)) : ms.length = countMarks l := by
  induction l generalizing cs pos e ms with
  | nil => rw [matchList_nil] at h; cases h; rfl
  | cons re k ih =>
    cases re with
    | cls p =>
      cases cs with
      | nil => rw [matchList_cls_nil] at h; cases h
      | cons c cs' =>
        rw [matchList_cls_cons] at h
        by_cases hp : p c = true
        · rw [if_pos hp] at h; exact ih h
        · rw [if_neg hp] at h; cases h
    | lit s =>
      rw [matchList_lit] at h
      by_cases hs : startsWithCI cs s = true
      · rw [if_pos hs] at h; exact ih h
      · rw [if_neg hs] at h; cases h
    | litAlt ss =>
      rw [matchList_litAlt] at h
      obtain ⟨s, _, hs⟩ := findSome?_ex h
      by_cases hpre : startsWithCI cs s = true
      · rw [if_pos hpre] at hs; exact ih hs
      · rw [if_neg hpre] at hs; cases hs
    | rep g lo hi p =>
      rw [matchList_rep] at h
      obtain ⟨n, _, hs⟩ := findSome?_ex h
      exact ih hs
    | mark =>
      rw [matchList_mark] at h
      cases hr : matchList k cs pos with
      | none => rw [hr] at h; cases h
      | some r =>
        rw [hr] at h
        simp only [Option.map] at h
        cases h
        show r.2.length + 1 = countMarks k + 1
        rw [ih (by rw [hr])]
    | eos =>
      rw [matchList_eos] at h
      by_cases he : cs.isEmpty
      · rw [if_pos he] at h; exact ih h
      · rw [if_neg he] at h; cases h

theorem loopFirst_nil {α : Type} {f : List Char → Option α} {truthy : Option α → Bool}
    {cur : Option α} : loopFirst f truthy cur [] = cur := rfl

theorem loopFirst_cons {α : Type} {f : List Char → Option α} {truthy : Option α → Bool}
    {cur : Option α} {l : List Char} {ls : List (List Char)} :
    loopFirst f truthy cur (l :: ls) =
      (let cur' := match f l with
                   | some v => some v
                   | none => cur
       if truthy cur' then cur' else loopFirst f truthy cur' ls) := rfl

theorem loopFirst_eq_findSome? {α : Type} {f : List Char → Option α}
    {truthy : Option α → Bool} {lines : List (List Char)}
    (h0 : truthy none = false)
    (h1 : ∀ l v, f l = some v → truthy (some v) = true) :
    loopFirst f truthy none lines = lines.findSome? f := by
  induction lines with
  | nil => rfl
  | cons l ls ih =>
    rw [loopFirst_cons, List.findSome?_cons]
    cases hf : f l with
    | some v => simp only [h1 l v hf, if_pos]
    | none => simp only [h0, Bool.false_eq_true, if_false]; exact ih

theorem find?_eq_some_split {α : Type} {p : α → Bool} {l : List α} {a : α}
    (h : l.find? p = some a) :
    p a = true ∧ ∃ u v, l = u ++ a :: v ∧ ∀ x ∈ u, p x = false := by
  induction l with
  | nil => simp [List.find?_nil] at h
  | cons x xs ih =>
    rw [List.find?_cons] at h
    cases hp : p x with
    | true =>
      rw [hp] at h
      cases h
      exact ⟨hp, [], xs, rfl, by simp⟩
    | false =>
      rw [hp] at h
      obtain ⟨hpa, u, v, rfl, hu⟩ := ih h
      refine ⟨hpa, x :: u, v, rfl, ?_⟩
      intro y hy
      rcases List.mem_cons.mp hy with rfl | hy'
      · exact hp
      · exact hu y hy'

theorem startsWithList_iff {hay nd : List Char} :
    startsWithList hay nd = true ↔ ∃ v, hay = nd ++ v := by
  induction nd generalizing hay with
  | nil =>
    constructor
    · intro _; exact ⟨hay, rfl⟩
    · intro _; cases hay <;> rfl
  | cons d ds ih =>
    cases hay with
    | nil =>
      constructor
      · intro h; cases h
      · rintro ⟨v, hv⟩; cases hv
    | cons c cs =>
      show (decide (c = d) && startsWithList cs ds) = true ↔ _
      rw [Bool.and_eq_true, decide_eq_true_iff, ih]
      constructor
      · rintro ⟨rfl, v, rfl⟩; exact ⟨v, rfl⟩
      · rintro ⟨v, hv⟩
        injection hv with h1 h2
        exact ⟨h1, v, h2⟩

theorem containsStr_cons {c : Char} {t nd : List Char} :
    containsStr (c :: t) nd = (startsWithList (c :: t) nd || containsStr t nd) := rfl

theorem containsStr_iff {hay nd : List Char} :
    containsStr hay nd = true ↔ ∃ u v, hay = u ++ nd ++ v := by
  induction hay with
  | nil =>
    show (startsWithList [] nd || false) = true ↔ _
    rw [Bool.or_false, startsWithList_iff]
    constructor
    · rintro ⟨v, hv⟩; exact ⟨[], v, by simpa using hv⟩
    · rintro ⟨u, v, huv⟩
      have hu : u = [] := by
        cases u with
        | nil => rfl
        | cons _ _ => cases huv
      subst hu
      exact ⟨v, by simpa using huv⟩
  | cons c t ih =>
    rw [containsStr_cons, Bool.or_eq_true, startsWithList_iff, ih]
    constructor
    · rintro (⟨v, hv⟩ | ⟨u, v, huv⟩)
      · exact ⟨[], v, by simpa using hv⟩
      · exact ⟨c :: u, v, by simp [huv]⟩
    · rintro ⟨u, v, huv⟩
      cases u with
      | nil => exact Or.inl ⟨v, by simpa using huv⟩
      | cons u0 u' =>
        injection huv with h1 h2
        exact Or.inr ⟨u', v, h2⟩

theorem loopFirst_amount_zero {pats : List (List RE)} {ls : List (List Char)} :
    loopFirst (UseReceiptOCR.amountOfLine pats) truthyQ (some 0) ls =
      (match ls.findSome? (nzAmount pats) with
       | some v => some v
       | none => some 0) := by
  induction ls with
  | nil => rw [loopFirst_nil, List.findSome?_nil]
  | cons l ls ih =>
    rw [loopFirst_cons, List.findSome?_cons]
    cases hf : UseReceiptOCR.amountOfLine pats l with
    | some v =>
      by_cases hv : v = 0
      · subst hv
        have ht : truthyQ (some (0 : ℚ)) = false := by simp [truthyQ]
        simp only [ht, Bool.false_eq_true, if_false]
        have hnz : nzAmount pats l = none := by simp [nzAmount, hf]
        rw [hnz]
        exact ih
      · have ht : truthyQ (some v) = true := by simp [truthyQ, hv]
        simp only [ht, if_pos]
        have hnz : nzAmount pats l = some v := by simp [nzAmount, hf, hv]
        rw [hnz]
    | none =>
      have ht : truthyQ (some (0 : ℚ)) = false := by simp [truthyQ]
      simp only [ht, Bool.false_eq_true, if_false]
      have hnz : nzAmount pats l = none := by simp [nzAmount, hf]
      rw [hnz]
      exact ih

theorem loopFirst_amount_none {pats : List (List RE)} {ls : List (List Char)} :
    loopFirst (UseReceiptOCR.amountOfLine pats) truthyQ none ls = amountFirst pats ls := by
  induction ls with
  | nil => rw [loopFirst_nil]; rfl
  | cons l ls ih =>
    rw [loopFirst_cons]
    rw [amountFirst, List.findSome?_cons]
    cases hf : UseReceiptOCR.amountOfLine pats l with
    | some v =>
      by_cases hv : v = 0
      · subst hv
        have ht : truthyQ (some (0 : ℚ)) = false := by simp [truthyQ]
        simp only [ht, Bool.false_eq_true, if_false]
        have hnz : nzAmount pats l = none := by simp [nzAmount, hf]
        rw [hnz, loopFirst_amount_zero]
        have hany : (l :: ls).any (fun l => (UseReceiptOCR.amountOfLine pats l).isSome) = true := by
          simp [List.any_cons, hf]
        rw [hany]
        simp only [if_pos]
      · have ht : truthyQ (some v) = true := by simp [truthyQ, hv]
        simp only [ht, if_pos]
        have hnz : nzAmount pats l = some v := by simp [nzAmount, hf, hv]
        rw [hnz]
    | none =>
      have ht : truthyQ (none : Option ℚ) = false := by simp [truthyQ]
      simp only [ht, Bool.false_eq_true, if_false]
      have hnz : nzAmount pats l = none := by simp [nzAmount, hf]
      rw [hnz, ih, amountFirst]
      have hany : ((l :: ls).any (fun l => (UseReceiptOCR.amountOfLine pats l).isSome))
          = (ls.any (fun l => (UseReceiptOCR.amountOfLine pats l).isSome)) := by
        simp [List.any_cons, hf]
      rw [hany]

theorem itemFold_acc (lines : List (List Char)) (acc : List ReceiptOCRItem) :
    lines.foldl (fun acc l =>
      match UseReceiptOCR.itemOfLine l with
      | some (name, some price) =>
        if 0 < price ∧ price < 10000 then
          if UseReceiptOCR.keywordFree name then acc ++ [⟨String.mk name, price⟩] else acc
        else acc
      | _ => acc) acc = acc ++ lines.filterMap emitOfLine := by
  induction lines generalizing acc with
  | nil => simp
  | cons l ls ih =>
    rw [List.foldl_cons, List.filterMap_cons, ih]
    cases hf : UseReceiptOCR.itemOfLine l with
    | none => simp [emitOfLine, hf]
    | some r =>
      obtain ⟨name, priceOpt⟩ := r
      cases priceOpt with
      | none => simp [emitOfLine, hf]
      | some price =>
        by_cases hb : 0 < price ∧ price < 10000
        · by_cases hk : UseReceiptOCR.keywordFree name = true
          · simp [emitOfLine, hf, hb, hk]
          · simp [emitOfLine, hf, hb, hk]
        · simp [emitOfLine, hf, hb]

theorem extractItems_eq_filterMap (lines : List (List Char)) :
    UseReceiptOCR.extractItems lines = lines.filterMap emitOfLine :=
  (itemFold_acc lines []).trans (List.nil_append _)

theorem dateOfLine_ne_nil {l d : List Char}
    (h : UseReceiptOCR.dateOfLine l = some d) : d ≠ [] := by
  simp only [UseReceiptOCR.dateOfLine] at h
  obtain ⟨p, hp, hsearch⟩ := findSome?_ex h
  cases hs : searchFrom p l 0 with
  | none => rw [hs] at hsearch; cases hsearch
  | some r =>
    obtain ⟨s, e, ms⟩ := r
    rw [hs] at hsearch
    simp only [Option.map] at hsearch
    have hd : d = segOf l s e := by cases hsearch; rfl
    obtain ⟨-, hslen, hm⟩ := searchFrom_spec hs
    rw [Nat.sub_zero] at hslen hm
    have hadv : s + 1 ≤ e := by
      simp only [UseReceiptOCR.datePatterns, List.mem_cons, List.mem_nil_iff, or_false] at hp
      rcases hp with rfl | rfl | rfl
      · exact rep_head_adv (Nat.le_refl 1) hm
      · exact rep_head_adv (by omega) hm
      · exact litAlt_head_adv (by decide) hm
    have hb := matchList_bounds hm
    have hlen : 0 < d.length := by
      rw [hd, segOf, List.length_take, List.length_drop]
      have h2 : e - s ≤ l.length - s := by
        have := List.length_drop s l
        omega
      rw [Nat.min_eq_left h2]
      omega
    exact List.length_pos.mp hlen

theorem isSome_omap {α β : Type} {f : α → β} {o : Option α} :
    (o.map f).isSome = o.isSome := by
  cases o <;> rfl

theorem matchList_isSome_pos {k : List RE} {cs : List Char} (pos pos' : Nat) :
    (matchList k cs pos).isSome = (matchList k cs pos').isSome := by
  rw [Bool.eq_iff_iff]
  induction k generalizing cs pos pos' with
  | nil => rw [matchList_nil, matchList_nil]; simp
  | cons re k ih =>
    cases re with
    | cls p =>
      cases cs with
      | nil => rw [matchList_cls_nil, matchList_cls_nil]
      | cons c cs' =>
        rw [matchList_cls_cons, matchList_cls_cons]
        by_cases hp : p c = true
        · rw [if_pos hp, if_pos hp]; exact ih _ _
        · rw [if_neg hp, if_neg hp]
    | lit s =>
      rw [matchList_lit, matchList_lit]
      by_cases hs : startsWithCI cs s = true
      · rw [if_pos hs, if_pos hs]; exact ih _ _
      · rw [if_neg hs, if_neg hs]
    | litAlt ss =>
      rw [matchList_litAlt, matchList_litAlt, findSome?_isSome_iff, findSome?_isSome_iff]
      constructor <;> rintro ⟨s, hmem, hs⟩ <;> refine ⟨s, hmem, ?_⟩ <;>
        by_cases hpre : startsWithCI cs s = true
      · rw [if_pos hpre] at hs ⊢; exact (ih _ _).mp hs
      · rw [if_neg hpre] at hs; cases hs
      · rw [if_pos hpre] at hs ⊢; exact (ih _ _).mp hs
      · rw [if_neg hpre] at hs; cases hs
    | rep g lo hi p =>
      rw [matchList_rep, matchList_rep, findSome?_isSome_iff, findSome?_isSome_iff]
      constructor <;> rintro ⟨n, hmem, hs⟩ <;> exact ⟨n, hmem, (ih _ _).mp hs⟩
    | mark =>
      rw [matchList_mark, matchList_mark]
      show (Option.map _ _).isSome = true ↔ (Option.map _ _).isSome = true
      rw [isSome_omap, isSome_omap]
      exact ih _ _
    | eos =>
      rw [matchList_eos, matchList_eos]
      by_cases he : cs.isEmpty
      · rw [if_pos he, if_pos he]; exact ih _ _
      · rw [if_neg he, if_neg he]

theorem matchBool_eq_isSome {k : List RE} {cs : List Char} {pos : Nat} :
    (matchList k cs pos).isSome = matchBool k cs :=
  matchList_isSome_pos pos 0

theorem MB_nil {cs : List Char} : matchBool [] cs = true := rfl

theorem MB_mark {k : List RE} {cs : List Char} :
    matchBool (.mark :: k) cs = true ↔ matchBool k cs = true := by
  show (matchList (.mark :: k) cs 0).isSome = true ↔ _
  rw [matchList_mark]
  show (Option.map _ _).isSome = true ↔ _
  rw [isSome_omap]
  exact Iff.rfl

theorem MB_eos {k : List RE} {cs : List Char} :
    matchBool (.eos :: k) cs = true ↔ cs = [] ∧ matchBool k cs = true :=
  isSome_matchList_eos

theorem MB_repU_decomp {g : Bool} {lo : Nat} {p : Char → Bool} {k : List RE}
    {cs : List Char} :
    matchBool (.rep g lo none p :: k) cs = true ↔
      ∃ a rest, cs = a ++ rest ∧ lo ≤ a.length ∧ (∀ c ∈ a, p c = true) ∧
        matchBool k rest = true := by
  show (matchList (.rep g lo none p :: k) cs 0).isSome = true ↔ _
  rw [isSome_matchList_repU]
  have hpos : ∀ n, ((matchList k (cs.drop n) (0 + n)).isSome = true) =
      (matchBool k (cs.drop n) = true) := by
    intro n; rw [matchBool_eq_isSome]
  simp only [hpos]
  exact repU_decomp (P := fun rest => matchBool k rest = true)

theorem MB_repB_decomp {g : Bool} {lo hhi : Nat} {p : Char → Bool} {k : List RE}
    {cs : List Char} :
    matchBool (.rep g lo (some hhi) p :: k) cs = true ↔
      ∃ a rest, cs = a ++ rest ∧ lo ≤ a.length ∧ a.length ≤ hhi ∧
        (∀ c ∈ a, p c = true) ∧ matchBool k rest = true := by
  show (matchList (.rep g lo (some hhi) p :: k) cs 0).isSome = true ↔ _
  rw [isSome_matchList_repB]
  have hpos : ∀ n, ((matchList k (cs.drop n) (0 + n)).isSome = true) =
      (matchBool k (cs.drop n) = true) := by
    intro n; rw [matchBool_eq_isSome]
  simp only [hpos]
  exact repB_decomp (P := fun rest => matchBool k rest = true)

/-- A list of at most one character, all of one value, is empty or that
singleton. -/
theorem opt_one_char {p : Char → Bool} {q : Char} (hpq : ∀ c, p c = true ↔ c = q)
    {d : List Char} (h1 : d.length ≤ 1) (h2 : ∀ c ∈ d, p c = true) :
    d = [] ∨ d = [q] := by
  cases d with
  | nil => exact Or.inl rfl
  | cons c t =>
    cases t with
    | nil =>
      right
      have := (hpq c).mp (h2 c (List.mem_cons_self c []))
      rw [this]
    | cons c2 t2 => simp at h1

theorem itemPattern_matches_iff (l : List Char) :
    (matchList UseReceiptOCR.itemPattern l 0).isSome = true ↔ ItemShape l := by
  show matchBool UseReceiptOCR.itemPattern l = true ↔ _
  rw [UseReceiptOCR.itemPattern]
  simp only [MB_repU_decomp, MB_repB_decomp, MB_mark, MB_eos, MB_nil, and_true,
    Nat.zero_le, true_and]
  constructor
  · rintro ⟨a, r1, rfl, ha1, ha2, w, r2, rfl, hw1, hw2, d, r3, rfl, hd1, hd2,
      x, r4, rfl, hx1, hx2, y, r5, rfl, hy1, hy2, z, r6, rfl, hz1, hz2, hz3, rfl⟩
    refine ⟨a, w, d, x ++ y ++ z, by simp [List.append_assoc], ?_, ha2, ?_, hw2,
      opt_one_char (by intro c; simp [isDollar]) hd1 hd2,
      x, y, z, rfl, ?_, hx2,
      opt_one_char (by intro c; simp [isPeriod]) hy1 hy2, by omega, hz3⟩
    · intro hnil; rw [hnil] at ha1; simp at ha1
    · intro hnil; rw [hnil] at hw1; simp at hw1
    · intro hnil; rw [hnil] at hx1; simp at hx1
  · rintro ⟨a, w, d, m, rfl, ha, ha2, hw, hw2, hd, x, y, z, rfl, hx, hx2, hy, hz2, hz3⟩
    have hal : 1 ≤ a.length := by
      rcases Nat.eq_zero_or_pos a.length with h0 | h1
      · exact absurd (List.eq_nil_of_length_eq_zero h0) ha
      · exact h1
    have hwl : 1 ≤ w.length := by
      rcases Nat.eq_zero_or_pos w.length with h0 | h1
      · exact absurd (List.eq_nil_of_length_eq_zero h0) hw
      · exact h1
    have hxl : 1 ≤ x.length := by
      rcases Nat.eq_zero_or_pos x.length with h0 | h1
      · exact absurd (List.eq_nil_of_length_eq_zero h0) hx
      · exact h1
    have hdl : d.length ≤ 1 := by rcases hd with rfl | rfl <;> simp
    have hd2 : ∀ c ∈ d, isDollar c = true := by
      rcases hd with rfl | rfl
      · simp
      · intro c hc
        rcases List.mem_singleton.mp hc with rfl
        simp [isDollar]
    have hyl : y.length ≤ 1 := by rcases hy with rfl | rfl <;> simp
    have hy2 : ∀ c ∈ y, isPeriod c = true := by
      rcases hy with rfl | rfl
      · simp
      · intro c hc
        rcases List.mem_singleton.mp hc with rfl
        simp [isPeriod]
    exact ⟨a, w ++ (d ++ (x ++ (y ++ z))), by simp [List.append_assoc], hal, ha2,
      w, d ++ (x ++ (y ++ z)), rfl, hwl, hw2,
      d, x ++ (y ++ z), rfl, hdl, hd2,
      x, y ++ z, by simp [List.append_assoc], hxl, hx2,
      y, z, rfl, hyl, hy2,
      z, [], by simp, by omega, by omega, hz3, rfl⟩

theorem merchantTest_iff {l : List Char} :
    UseReceiptOCR.merchantTest l = true ↔ MerchProp l := by
  cases l with
  | nil => simp [UseReceiptOCR.merchantTest, MerchProp]
  | cons c t =>
    show (decide (3 < (c :: t).length) && decide ((c :: t).length < 50) &&
      !(isDigitCh c) && (c :: t).any isUpperLatin) = true ↔ _
    simp only [Bool.and_eq_true, decide_eq_true_iff, Bool.not_eq_true', List.any_eq_true,
      MerchProp, List.head?_cons, Option.some.injEq]
    constructor
    · rintro ⟨⟨⟨h3, h50⟩, hd⟩, hu⟩
      exact ⟨h3, h50, fun c2 hc2 => hc2 ▸ hd, hu⟩
    · rintro ⟨h3, h50, hd, hu⟩
      exact ⟨⟨⟨h3, h50⟩, hd c rfl⟩, hu⟩

theorem keywordFree_iff {name : List Char} :
    UseReceiptOCR.keywordFree name = true ↔ NoKeyword name := by
  show (!containsStr (name.map Char.toLower) "total".data &&
        !containsStr (name.map Char.toLower) "tax".data &&
        !containsStr (name.map Char.toLower) "subtotal".data &&
        !containsStr (name.map Char.toLower) "amount".data &&
        !containsStr (name.map Char.toLower) "balance".data) = true ↔ _
  simp only [Bool.and_eq_true, Bool.not_eq_true']
  rw [NoKeyword, keywordListLC]
  constructor
  · rintro ⟨⟨⟨⟨h1, h2⟩, h3⟩, h4⟩, h5⟩
    intro kw hkw hex
    have hc : containsStr (name.map Char.toLower) kw = true := containsStr_iff.mpr hex
    rcases List.mem_cons.mp hkw with rfl | hkw
    · rw [hc] at h1; cases h1
    rcases List.mem_cons.mp hkw with rfl | hkw
    · rw [hc] at h2; cases h2
    rcases List.mem_cons.mp hkw with rfl | hkw
    · rw [hc] at h3; cases h3
    rcases List.mem_cons.mp hkw with rfl | hkw
    · rw [hc] at h4; cases h4
    rcases List.mem_cons.mp hkw with rfl | hkw
    · rw [hc] at h5; cases h5
    · cases hkw
  · intro h
    have hf : ∀ kw ∈ keywordListLC, containsStr (name.map Char.toLower) kw = false := by
      intro kw hkw
      cases hck : containsStr (name.map Char.toLower) kw with
      | false => rfl
      | true =>
        exact absurd (containsStr_iff.mp hck) (h kw hkw)
    refine ⟨⟨⟨⟨?_, ?_⟩, ?_⟩, ?_⟩, ?_⟩ <;>
      exact hf _ (by rw [keywordListLC]; simp)

theorem date_scan_eq (text : String) :
    (UseReceiptOCR.parseReceiptText text).date =
      ((UseReceiptOCR.normalizedLines text).findSome? UseReceiptOCR.dateOfLine).map
        String.mk := by
  show (loopFirst UseReceiptOCR.dateOfLine truthyStr none
      (UseReceiptOCR.normalizedLines text)).map String.mk = _
  congr 1
  exact loopFirst_eq_findSome? rfl (fun l v hv => by
    cases v with
    | nil => exact absurd rfl (dateOfLine_ne_nil hv)
    | cons c t => rfl)

/-! ## The claims -/

/-- C1, amended: on the end-to-end input the parser returns merchant
QUICK MART, date 04/12/2025, tax 0.52, subtotal 6.48 and the items Milk
at 3.99 and Bread at 2.49 in that order, but total 6.48 rather than the
claimed 7.00: the total labels match the substring total inside the
earlier Subtotal line first. -/
theorem c1_amended_end_to_end :
    UseReceiptOCR.parseReceiptText e2eText =
      { merchant := some "QUICK MART", date := some "04/12/2025",
        total := some 6.48, tax := some 0.52, subtotal := some 6.48,
        items := [⟨"Milk", 3.99⟩, ⟨"Bread", 2.49⟩], raw_text := e2eText } := by
  have h1 : (6.48 : ℚ) = mkRat 648 100 := by norm_num [mkRat]
  have h2 : (0.52 : ℚ) = mkRat 52 100 := by norm_num [mkRat]
  have h3 : (3.99 : ℚ) = mkRat 399 100 := by norm_num [mkRat]
  have h4 : (2.49 : ℚ) = mkRat 249 100 := by norm_num [mkRat]
  rw [h1, h2, h3, h4]
  decide

/-- C1 counterexample: on the end-to-end input the extracted total is
not 7.00 (it is 6.48, taken from the Subtotal line). -/
theorem c1_counterexample :
    ¬((UseReceiptOCR.parseReceiptText e2eText).total = some 7) := by decide

/-- C2, amended: the date field is the first match over lines in order;
for the amount fields the earliest line whose parsed value is nonzero
wins, but a parsed value of 0 does not stop the scan: it is kept only
when no later line matches, and is otherwise overwritten by a later
match (`amountFirst` states exactly this). -/
theorem c2_amended_first_match (text : String) :
    (UseReceiptOCR.parseReceiptText text).date =
      ((UseReceiptOCR.normalizedLines text).findSome? UseReceiptOCR.dateOfLine).map
        String.mk ∧
    (UseReceiptOCR.parseReceiptText text).total =
      amountFirst UseReceiptOCR.totalPatterns (UseReceiptOCR.normalizedLines text) ∧
    (UseReceiptOCR.parseReceiptText text).tax =
      amountFirst UseReceiptOCR.taxPatterns (UseReceiptOCR.normalizedLines text) ∧
    (UseReceiptOCR.parseReceiptText text).subtotal =
      amountFirst UseReceiptOCR.subtotalPatterns (UseReceiptOCR.normalizedLines text) :=
  ⟨date_scan_eq text, loopFirst_amount_none, loopFirst_amount_none, loopFirst_amount_none⟩

/-- C2 counterexample: the first line of `Total: 0` then `Total: 5.00`
matches the total patterns with parsed value 0, yet the extracted total
is 5.00 from the later line, contradicting first-match-wins. -/
theorem c2_counterexample :
    UseReceiptOCR.normalizedLines "Total: 0\nTotal: 5.00" =
      ["Total: 0".data, "Total: 5.00".data] ∧
    UseReceiptOCR.amountOfLine UseReceiptOCR.totalPatterns "Total: 0".data = some 0 ∧
    (UseReceiptOCR.parseReceiptText "Total: 0\nTotal: 5.00").total = some 5 :=
  ⟨by decide, by decide, by decide⟩

/-- C3, amended: a line matches the line-item pattern exactly when it is
free-form text, whitespace, an optional currency symbol and an amount of
digits and commas followed by an OPTIONAL dot and exactly two final
digits; since the dot is optional, a line ending in a whitespace-
separated integer of three or more digits, such as Room 101, DOES match
and yields an item.  Every line is evaluated and all candidates passing
the filter become items in document order. -/
theorem c3_amended_item_pattern :
    (∀ l : List Char,
      (matchList UseReceiptOCR.itemPattern l 0).isSome = true ↔ ItemShape l) ∧
    (∀ lines : List (List Char),
      UseReceiptOCR.extractItems lines = lines.filterMap emitOfLine) ∧
    UseReceiptOCR.extractItems ["Room 101".data] = [⟨"Room", 101⟩] :=
  ⟨itemPattern_matches_iff, extractItems_eq_filterMap, by decide⟩

/-- C3 counterexample: the line Room 101, which ends in an integer with
no decimal point, is matched by the line-item pattern (2 digits of 101
serve as the required two final digits) and produces a candidate. -/
theorem c3_counterexample :
    (matchList UseReceiptOCR.itemPattern "Room 101".data 0).isSome = true ∧
    UseReceiptOCR.itemOfLine "Room 101".data = some ("Room".data, some 101) :=
  ⟨by decide, by decide⟩

/-- C4: parseReceiptText is a total function: for every input string it
returns a well-formed record whose raw_text is the input and whose items
field is a list; on the empty and on whitespace-only input every
optional field is absent and items is empty. -/
theorem c4_totality :
    (∀ s : String, ∃ (merchant date : Option String) (total tax subtotal : Option ℚ)
        (items : List ReceiptOCRItem),
        UseReceiptOCR.parseReceiptText s =
          { merchant := merchant, date := date, total := total, tax := tax,
            subtotal := subtotal, items := items, raw_text := s }) ∧
    UseReceiptOCR.parseReceiptText "" =
      { merchant := none, date := none, total := none, tax := none, subtotal := none,
        items := [], raw_text := "" } ∧
    UseReceiptOCR.parseReceiptText "   \n\t \n  " =
      { merchant := none, date := none, total := none, tax := none, subtotal := none,
        items := [], raw_text := "   \n\t \n  " } :=
  ⟨fun s => ⟨_, _, _, _, _, _, rfl⟩, by decide, by decide⟩

/-- C5: the raw_text field of the returned record is the original input,
verbatim. -/
theorem c5_raw_text_fidelity :
    ∀ s : String, (UseReceiptOCR.parseReceiptText s).raw_text = s :=
  fun _ => rfl

/-- C6: a candidate line matching the item pattern is emitted exactly
when its parsed amount is strictly between 0 and 10000 and its
lower-cased name contains none of the five keywords; the lines
Serial Number 2024 99999.00 and Free Sample 0.00 yield no item. -/
theorem c6_item_filter :
    (∀ (l name : List Char) (price : ℚ),
      UseReceiptOCR.itemOfLine l = some (name, some price) →
        (UseReceiptOCR.extractItems [l] = [⟨String.mk name, price⟩] ↔
          0 < price ∧ price < 10000 ∧ NoKeyword name) ∧
        (UseReceiptOCR.extractItems [l] = [] ↔
          ¬(0 < price ∧ price < 10000 ∧ NoKeyword name))) ∧
    UseReceiptOCR.extractItems ["Serial Number 2024 99999.00".data] = [] ∧
    UseReceiptOCR.extractItems ["Free Sample 0.00".data] = [] := by
  refine ⟨?_, by decide, by decide⟩
  intro l name price h
  have he : UseReceiptOCR.extractItems [l] =
      (if 0 < price ∧ price < 10000 then
        (if UseReceiptOCR.keywordFree name then
          [(⟨String.mk name, price⟩ : ReceiptOCRItem)] else [])
       else []) := by
    rw [extractItems_eq_filterMap, List.filterMap_cons]
    have hemit : emitOfLine l =
        (if 0 < price ∧ price < 10000 then
          (if UseReceiptOCR.keywordFree name then
            some (⟨String.mk name, price⟩ : ReceiptOCRItem) else none)
         else none) := by
      rw [emitOfLine, h]
    rw [hemit]
    by_cases hb : 0 < price ∧ price < 10000
    · by_cases hk : UseReceiptOCR.keywordFree name = true
      · rw [if_pos hb, if_pos hk, if_pos hb, if_pos hk]; rfl
      · rw [if_pos hb, if_neg hk, if_pos hb, if_neg hk]; rfl
    · rw [if_neg hb, if_neg hb]; rfl
  by_cases hb : 0 < price ∧ price < 10000
  · by_cases hk : UseReceiptOCR.keywordFree name = true
    · rw [he, if_pos hb, if_pos hk]
      have hnk : NoKeyword name := keywordFree_iff.mp hk
      refine ⟨⟨fun _ => ⟨hb.1, hb.2, hnk⟩, fun _ => rfl⟩, ?_, ?_⟩
      · intro h0
        exact absurd h0 (List.cons_ne_nil _ _)
      · intro hn
        exact absurd ⟨hb.1, hb.2, hnk⟩ hn
    · rw [he, if_pos hb, if_neg hk]
      have hnk : ¬ NoKeyword name := fun hn => hk (keywordFree_iff.mpr hn)
      refine ⟨⟨fun h0 => absurd h0.symm (List.cons_ne_nil _ _), ?_⟩,
        fun _ => ?_, fun _ => rfl⟩
      · rintro ⟨-, -, hn⟩
        exact absurd hn hnk
      · rintro ⟨-, -, hn⟩
        exact hnk hn
  · rw [he, if_neg hb]
    refine ⟨⟨fun h0 => absurd h0.symm (List.cons_ne_nil _ _), ?_⟩,
      fun _ => ?_, fun _ => rfl⟩
    · rintro ⟨h1, h2, -⟩
      exact absurd ⟨h1, h2⟩ hb
    · rintro ⟨h1, h2, -⟩
      exact hb ⟨h1, h2⟩

/-- C6 witness: the filter characterization applied to the line
Milk 3.99, whose candidate has name Milk and price 3.99. -/
theorem c6_item_filter_witness :
    (UseReceiptOCR.extractItems ["Milk 3.99".data] =
        [⟨String.mk "Milk".data, mkRat 399 100⟩] ↔
      0 < mkRat 399 100 ∧ mkRat 399 100 < 10000 ∧ NoKeyword "Milk".data) ∧
    (UseReceiptOCR.extractItems ["Milk 3.99".data] = [] ↔
      ¬(0 < mkRat 399 100 ∧ mkRat 399 100 < 10000 ∧ NoKeyword "Milk".data)) :=
  c6_item_filter.1 "Milk 3.99".data "Milk".data (mkRat 399 100) (by decide)

/-- C7: the merchant is the first normalized line of length strictly
between 3 and 50 that does not begin with a digit and contains an
uppercase Latin letter; it is absent when no line qualifies; on the
three-line example the second line ACME HARDWARE STORE is chosen. -/
theorem c7_merchant_heuristic :
    (∀ (text : String) (m : String),
      (UseReceiptOCR.parseReceiptText text).merchant = some m →
        MerchProp m.data ∧
        ∃ u v, UseReceiptOCR.normalizedLines text = u ++ m.data :: v ∧
          ∀ x ∈ u, ¬ MerchProp x) ∧
    (∀ text : String,
      (∀ x ∈ UseReceiptOCR.normalizedLines text, ¬ MerchProp x) →
        (UseReceiptOCR.parseReceiptText text).merchant = none) ∧
    (UseReceiptOCR.parseReceiptText "123456\nACME HARDWARE STORE\n123 Main St").merchant =
      some "ACME HARDWARE STORE" := by
  refine ⟨?_, ?_, by decide⟩
  · intro text m hm
    have hm' : ((UseReceiptOCR.normalizedLines text).find?
        UseReceiptOCR.merchantTest).map String.mk = some m := hm
    cases hf : (UseReceiptOCR.normalizedLines text).find? UseReceiptOCR.merchantTest with
    | none => rw [hf] at hm'; cases hm'
    | some l0 =>
      rw [hf] at hm'
      simp only [Option.map] at hm'
      have hdata : m.data = l0 := by cases hm'; rfl
      obtain ⟨hp, u, v, heq, hu⟩ := find?_eq_some_split hf
      subst hdata
      refine ⟨merchantTest_iff.mp hp, u, v, heq, ?_⟩
      intro x hx hMP
      have h1 := merchantTest_iff.mpr hMP
      rw [hu x hx] at h1
      cases h1
  · intro text hall
    show ((UseReceiptOCR.normalizedLines text).find?
        UseReceiptOCR.merchantTest).map String.mk = none
    have hnone : (UseReceiptOCR.normalizedLines text).find? UseReceiptOCR.merchantTest
        = none :=
      List.find?_eq_none.mpr (fun x hx hMT => hall x hx (merchantTest_iff.mp hMT))
    rw [hnone]
    rfl

/-- C7 witness: the first-qualifying-line characterization applied to
the three-line example of the specification. -/
theorem c7_merchant_heuristic_witness :
    MerchProp ("ACME HARDWARE STORE" : String).data ∧
    ∃ u v, UseReceiptOCR.normalizedLines "123456\nACME HARDWARE STORE\n123 Main St" =
      u ++ ("ACME HARDWARE STORE" : String).data :: v ∧ ∀ x ∈ u, ¬ MerchProp x :=
  c7_merchant_heuristic.1 "123456\nACME HARDWARE STORE\n123 Main St"
    "ACME HARDWARE STORE" (by decide)

/-- C8: the date is the first per-line match over lines in order (per
line, patterns tried in priority order), the stored value is a verbatim
substring of the matched line, and the three example inputs each yield a
non-absent date equal to the matched substring (note that on 2025-04-12
the first pattern matches the substring 25-04-12). -/
theorem c8_date_extraction :
    (∀ text : String,
      (UseReceiptOCR.parseReceiptText text).date =
        ((UseReceiptOCR.normalizedLines text).findSome? UseReceiptOCR.dateOfLine).map
          String.mk) ∧
    (∀ (text : String) (d : String),
      (UseReceiptOCR.parseReceiptText text).date = some d →
        ∃ l ∈ UseReceiptOCR.normalizedLines text, ∃ u v, l = u ++ d.data ++ v) ∧
    (UseReceiptOCR.parseReceiptText "Date: 04/12/2025").date = some "04/12/2025" ∧
    (UseReceiptOCR.parseReceiptText "2025-04-12").date = some "25-04-12" ∧
    (UseReceiptOCR.parseReceiptText "Apr 12, 2025").date = some "Apr 12, 2025" := by
  refine ⟨date_scan_eq, ?_, by decide, by decide, by decide⟩
  intro text d hd
  rw [date_scan_eq] at hd
  cases hf : (UseReceiptOCR.normalizedLines text).findSome? UseReceiptOCR.dateOfLine with
  | none => rw [hf] at hd; cases hd
  | some d0 =>
    rw [hf] at hd
    simp only [Option.map] at hd
    have hdata : d.data = d0 := by cases hd; rfl
    obtain ⟨l, hl, hdl⟩ := findSome?_ex hf
    simp only [UseReceiptOCR.dateOfLine] at hdl
    obtain ⟨p, hp, hsearch⟩ := findSome?_ex hdl
    cases hs : searchFrom p l 0 with
    | none => rw [hs] at hsearch; cases hsearch
    | some r =>
      obtain ⟨s, e, ms⟩ := r
      rw [hs] at hsearch
      simp only [Option.map] at hsearch
      have hseg : d0 = segOf l s e := by cases hsearch; rfl
      refine ⟨l, hl, l.take s, (l.drop s).drop (e - s), ?_⟩
      rw [hdata, hseg, List.append_assoc, segOf, List.take_append_drop,
        List.take_append_drop]

/-- C8 witness: the verbatim-substring property applied to the input
2025-04-12, whose extracted date is the substring 25-04-12. -/
theorem c8_date_extraction_witness :
    ∃ l ∈ UseReceiptOCR.normalizedLines "2025-04-12",
      ∃ u v, l = u ++ ("25-04-12" : String).data ++ v :=
  c8_date_extraction.2.1 "2025-04-12" "25-04-12" (by decide)

/-- C9: a line whose label pattern matches but whose captured digits do
not parse contributes nothing and scanning continues with later lines;
on the input whose first line is Total: , (the capture is a bare comma,
parsing to NaN) the total comes from the second line. -/
theorem c9_amount_parse_recovery :
    (∀ (pats : List (List RE)) (l : List Char) (ls : List (List Char)),
      UseReceiptOCR.amountOfLine pats l = none →
        loopFirst (UseReceiptOCR.amountOfLine pats) truthyQ none (l :: ls) =
          loopFirst (UseReceiptOCR.amountOfLine pats) truthyQ none ls) ∧
    (searchFrom UseReceiptOCR.totalPattern1 "Total: ,".data 0).isSome = true ∧
    UseReceiptOCR.amountOfLine UseReceiptOCR.totalPatterns "Total: ,".data = none ∧
    (UseReceiptOCR.parseReceiptText "Total: ,\nTotal: 5.00").total = some 5 := by
  refine ⟨?_, by decide, by decide, by decide⟩
  intro pats l ls h
  rw [loopFirst_cons, h]
  rfl

/-- C9 witness: the skip property applied to the two-line input with the
unparseable first line Total: , . -/
theorem c9_amount_parse_recovery_witness :
    loopFirst (UseReceiptOCR.amountOfLine UseReceiptOCR.totalPatterns) truthyQ none
        ["Total: ,".data, "Total: 5.00".data] =
      loopFirst (UseReceiptOCR.amountOfLine UseReceiptOCR.totalPatterns) truthyQ none
        ["Total: 5.00".data] :=
  c9_amount_parse_recovery.1 UseReceiptOCR.totalPatterns "Total: ,".data
    ["Total: 5.00".data] (by decide)

/-- C10: the client copy of parseReceiptText in the OCR hook and the
server copy in the API route are extensionally equal: they are the same
TypeScript text, so their embeddings agree on every input. -/
theorem c10_client_server_equal :
    ∀ s : String, UseReceiptOCR.parseReceiptText s = LineItemsRoute.parseReceiptText s :=
  fun _ => rfl
